import Mathlib

/-!
Verification development for the `api/index.py` Flask backend of the
nextjs-flask meeting-assistant repository.

The Python source is shallowly embedded over `List Char` (Python `str`):

* `pyStrip` models `str.strip()` (restricted to ASCII whitespace);
* `stripLeadingFence` / `stripTrailingFence` model the two `re.sub` calls that
  remove a markdown code fence (the regexes
  `^` ``` `(?:json)?\s*` and `\s*` ``` `$` with `re.IGNORECASE`);
* `jsonParse` models `json.loads` on the JSON grammar Python accepts
  (including the `NaN` / `Infinity` extensions; numbers are kept as lexemes;
  `\uXXXX` string escapes are outside the modelled fragment);
* `summarize_conversation`, `get_prompts`, `get_current_agenda` and
  `explain_concepts` model the deterministic normalization part of the
  corresponding route handlers, from the raw agent output (the value of
  `result.final_output`, whose `.strip()` happens in `run_agent_sync`) to the
  JSON response.  The `failure` constructors model the `except Exception`
  500 responses (in particular the `AttributeError` raised by `.get` when
  `json.loads` returns a non-dict value);
* `save_audio` / `transcriptAppend` / `persistedTranscript` model the
  control flow of the audio-ingestion handler around transcription and
  transcript persistence.
-/

namespace NextjsFlask

/-- The backtick character (kept out of source text). -/
def bq : Char := Char.ofNat 96

/-- Left curly brace. -/
def lbrace : Char := Char.ofNat 123

/-- Right curly brace. -/
def rbrace : Char := Char.ofNat 125

/-- JSON inter-token whitespace, exactly the set `json.loads` skips. -/
def isJsonWs (c : Char) : Bool := c = ' ' || c = '\t' || c = '\n' || c = '\r'

/-- Python `str.strip()` / regex `\s` whitespace (ASCII fragment). -/
def isPyWs (c : Char) : Bool := isJsonWs c || c = '\x0b' || c = '\x0c'

/-- `str.strip()`: drop whitespace from both ends. -/
def pyStrip (s : List Char) : List Char := (s.dropWhile isPyWs).rdropWhile isPyWs

/-- ASCII `str.lower()` on one character. -/
def asciiLower (c : Char) : Char :=
  if 'A' ≤ c && c ≤ 'Z' then Char.ofNat (c.toNat + 32) else c

/-- ASCII `str.lower()`. -/
def lowerStr (s : List Char) : List Char := s.map asciiLower

/-- The three-backtick fence delimiter. -/
def fenceDelim : List Char := [bq, bq, bq]

/-- Model of `re.sub(r'^` ``` `(?:json)?\s*', '', s, flags=re.IGNORECASE)`:
if the text begins with three backticks, remove them, remove a
case-insensitive `json` tag if the next four characters spell one, and then
remove any following whitespace run. -/
def stripLeadingFence (cs : List Char) : List Char :=
  if cs.take 3 = fenceDelim then
    let r := cs.drop 3
    if lowerStr (r.take 4) = "json".data then (r.drop 4).dropWhile isPyWs
    else r.dropWhile isPyWs
  else cs

/-- Model of `re.sub(r'\s*` ``` `$', '', s)`: if the text ends with three
backticks, remove them together with the whitespace run before them. -/
def stripTrailingFence (cs : List Char) : List Char :=
  if cs.rtake 3 = fenceDelim then (cs.rdrop 3).rdropWhile isPyWs else cs

/-- The cleaned text every agent endpoint computes from the raw agent
output: `run_agent_sync` strips it, then the two fence regexes run. -/
def cleanText (raw : List Char) : List Char :=
  stripTrailingFence (stripLeadingFence (pyStrip raw))

/-- Python values produced by `json.loads`. Numbers are kept as their
source lexemes (their numeric value is never consumed by the handlers). -/
inductive JsonValue : Type where
  | null : JsonValue
  | bool (b : Bool) : JsonValue
  | num (lexeme : List Char) : JsonValue
  | str (s : List Char) : JsonValue
  | arr (elems : List JsonValue) : JsonValue
  | obj (members : List (List Char × JsonValue)) : JsonValue

/-- `dict` lookup for the dict built by `json.loads`: with duplicate keys
the last occurrence wins, as in CPython. -/
def dictFind (kvs : List (List Char × JsonValue)) (k : List Char) : Option JsonValue :=
  kvs.foldl (fun acc p => if p.1 = k then some p.2 else acc) none

/-- Skip JSON inter-token whitespace. -/
def skipWs (s : List Char) : List Char := s.dropWhile isJsonWs

/-- JSON string escapes (`\uXXXX` is outside the modelled fragment). -/
def escChar (c : Char) : Option Char :=
  if c = '"' then some '"'
  else if c = '\\' then some '\\'
  else if c = '/' then some '/'
  else if c = 'b' then some '\x08'
  else if c = 'f' then some '\x0c'
  else if c = 'n' then some '\n'
  else if c = 'r' then some '\r'
  else if c = 't' then some '\t'
  else none

/-- Parse the body of a JSON string after the opening quote; returns the
decoded content and the input after the closing quote.  Control characters
are rejected as in strict-mode `json.loads`. -/
def parseStringBody : Nat → List Char → Option (List Char × List Char)
  | 0, _ => none
  | _ + 1, [] => none
  | f + 1, c :: rest =>
    if c = '"' then some ([], rest)
    else if c = '\\' then
      match rest with
      | [] => none
      | e :: rest2 =>
        match escChar e with
        | none => none
        | some d =>
          match parseStringBody f rest2 with
          | none => none
          | some (s, r) => some (d :: s, r)
    else if c.toNat < 32 then none
    else
      match parseStringBody f rest with
      | none => none
      | some (s, r) => some (c :: s, r)

/-- Integer part of a JSON number: `0` or a nonzero digit followed by
digits. -/
def parseIntPart (cs : List Char) : Option (List Char × List Char) :=
  match cs with
  | [] => none
  | c :: r =>
    if c = '0' then some ([c], r)
    else if c.isDigit then some (c :: r.takeWhile Char.isDigit, r.dropWhile Char.isDigit)
    else none

/-- Optional fraction part `.digits` of a JSON number. -/
def parseFracPart (cs : List Char) : Option (List Char × List Char) :=
  match cs with
  | [] => some ([], [])
  | c :: r =>
    if c = '.' then
      let ds := r.takeWhile Char.isDigit
      if ds = [] then none else some (c :: ds, r.dropWhile Char.isDigit)
    else some ([], c :: r)

/-- Split an optional leading exponent sign from the rest. -/
def splitSign (r : List Char) : List Char × List Char :=
  match r with
  | [] => ([], [])
  | s :: r2 => if s = '+' || s = '-' then ([s], r2) else ([], s :: r2)

/-- Optional exponent part `[eE][+-]?digits` of a JSON number. -/
def parseExpPart (cs : List Char) : Option (List Char × List Char) :=
  match cs with
  | [] => some ([], [])
  | c :: r =>
    if c = 'e' || c = 'E' then
      let ds := (splitSign r).2.takeWhile Char.isDigit
      if ds = [] then none
      else some (c :: (splitSign r).1 ++ ds, (splitSign r).2.dropWhile Char.isDigit)
    else some ([], c :: r)

/-- Split an optional leading minus sign from the rest. -/
def splitNeg (cs : List Char) : List Char × List Char :=
  match cs with
  | [] => ([], [])
  | c :: r => if c = '-' then ([c], r) else ([], c :: r)

/-- A JSON number lexeme, as matched by Python's `NUMBER_RE`. -/
def parseNumber (cs : List Char) : Option (List Char × List Char) :=
  match parseIntPart (splitNeg cs).2 with
  | none => none
  | some (ip, cs2) =>
    match parseFracPart cs2 with
    | none => none
    | some (fp, cs3) =>
      match parseExpPart cs3 with
      | none => none
      | some (ep, cs4) => some ((splitNeg cs).1 ++ ip ++ fp ++ ep, cs4)

mutual

/-- Recursive-descent model of `json.loads`' value scanner.  The input is
assumed whitespace-skipped; the result is the value and the remaining
input. -/
def parseValue : Nat → List Char → Option (JsonValue × List Char)
  | 0, _ => none
  | _ + 1, [] => none
  | f + 1, c :: r =>
    if c = lbrace then
      match skipWs r with
      | [] => none
      | d :: r2 =>
        if d = rbrace then some (.obj [], r2)
        else
          match parseMembers f (d :: r2) with
          | none => none
          | some (kvs, rest) =>
            match rest with
            | [] => none
            | e :: r3 => if e = rbrace then some (.obj kvs, r3) else none
    else if c = '[' then
      match skipWs r with
      | [] => none
      | d :: r2 =>
        if d = ']' then some (.arr [], r2)
        else
          match parseElements f (d :: r2) with
          | none => none
          | some (xs, rest) =>
            match rest with
            | [] => none
            | e :: r3 => if e = ']' then some (.arr xs, r3) else none
    else if c = '"' then
      match parseStringBody f r with
      | none => none
      | some (s, rest) => some (.str s, rest)
    else if c = 't' then
      if r.take 3 = "rue".data then some (.bool true, r.drop 3) else none
    else if c = 'f' then
      if r.take 4 = "alse".data then some (.bool false, r.drop 4) else none
    else if c = 'n' then
      if r.take 3 = "ull".data then some (.null, r.drop 3) else none
    else if c = 'N' then
      if r.take 2 = "aN".data then some (.num "NaN".data, r.drop 2) else none
    else if c = 'I' then
      if r.take 7 = "nfinity".data then some (.num "Infinity".data, r.drop 7) else none
    else if c = '-' then
      if r.take 8 = "Infinity".data then some (.num "-Infinity".data, r.drop 8)
      else
        match parseNumber (c :: r) with
        | none => none
        | some (lex, rest) => some (.num lex, rest)
    else if c.isDigit then
      match parseNumber (c :: r) with
      | none => none
      | some (lex, rest) => some (.num lex, rest)
    else none

/-- One or more comma-separated `"key": value` members; the returned rest
is whitespace-skipped and should start with the closing brace. -/
def parseMembers : Nat → List Char → Option (List (List Char × JsonValue) × List Char)
  | 0, _ => none
  | _ + 1, [] => none
  | f + 1, c :: r =>
    if c = '"' then
      match parseStringBody f r with
      | none => none
      | some (key, r1) =>
        match skipWs r1 with
        | [] => none
        | d :: r2 =>
          if d = ':' then
            match parseValue f (skipWs r2) with
            | none => none
            | some (v, r3) =>
              match skipWs r3 with
              | [] => some ([(key, v)], [])
              | e :: r4 =>
                if e = ',' then
                  match parseMembers f (skipWs r4) with
                  | none => none
                  | some (kvs, rest) => some ((key, v) :: kvs, rest)
                else some ([(key, v)], e :: r4)
          else none
    else none

/-- One or more comma-separated array elements; the returned rest is
whitespace-skipped and should start with the closing bracket. -/
def parseElements : Nat → List Char → Option (List JsonValue × List Char)
  | 0, _ => none
  | f + 1, cs =>
    match parseValue f cs with
    | none => none
    | some (v, r) =>
      match skipWs r with
      | [] => some ([v], [])
      | e :: r2 =>
        if e = ',' then
          match parseElements f (skipWs r2) with
          | none => none
          | some (xs, rest) => some (v :: xs, rest)
        else some ([v], e :: r2)

end

/-- Model of `json.loads`: parse one value surrounded by optional
whitespace; anything else raises `JSONDecodeError`, modelled as `none`. -/
def jsonParse (s : List Char) : Option JsonValue :=
  match parseValue (s.length + 1) (skipWs s) with
  | none => none
  | some (v, rest) => if skipWs rest = [] then some v else none

/-! ### The four agent endpoints (normalization part) -/

/-- Key `'summary'`. -/
def summaryKey : List Char := "summary".data

/-- The summarize endpoint's sentinel text. -/
def summarySentinel : List Char := "Could not extract summary.".data

/-- `summary_output.lower().startswith("error")`. -/
def startsWithError (cs : List Char) : Bool :=
  (lowerStr cs).take 5 = "error".data

/-- Response of `/api/summarize` after a successful agent call:
either the 200 response `{"summary": v}` or the 500 `except Exception`
response (reached when `json.loads` returns a non-dict and `.get` raises
`AttributeError`). -/
inductive SummarizeResult : Type where
  | summary (v : JsonValue) : SummarizeResult
  | failure : SummarizeResult

/-- Normalization performed by `summarize_conversation` on the raw agent
output (lines 333-352 of `api/index.py`). -/
def summarize_conversation (raw : List Char) : SummarizeResult :=
  let cleaned := cleanText raw
  match jsonParse cleaned with
  | some (JsonValue.obj kvs) => .summary ((dictFind kvs summaryKey).getD (.str cleaned))
  | some _ => .failure
  | none =>
    if 10 < cleaned.length && !startsWithError cleaned then .summary (.str cleaned)
    else .summary (.str summarySentinel)

/-- Key `'prompts'`. -/
def promptsKey : List Char := "prompts".data

/-- Response of `/api/get-prompts` after a successful agent call. -/
inductive PromptsResult : Type where
  | prompts (xs : List JsonValue) : PromptsResult
  | failure : PromptsResult

/-- Normalization performed by `get_prompts` (lines 378-391). -/
def get_prompts (raw : List Char) : PromptsResult :=
  let cleaned := cleanText raw
  match jsonParse cleaned with
  | some (JsonValue.obj kvs) =>
    match (dictFind kvs promptsKey).getD (.arr []) with
    | .arr xs => .prompts xs
    | _ => .prompts []
  | some _ => .failure
  | none => .prompts []

/-- Key `'current_item'`. -/
def currentItemKey : List Char := "current_item".data

/-- The agenda endpoint's sentinel text. -/
def agendaSentinel : List Char := "Could not determine current item.".data

/-- Response of `/api/get-current-agenda` after a successful agent call. -/
inductive AgendaResult : Type where
  | currentItem (v : JsonValue) : AgendaResult
  | failure : AgendaResult

/-- Normalization performed by `get_current_agenda` (lines 421-434). -/
def get_current_agenda (raw : List Char) : AgendaResult :=
  let cleaned := cleanText raw
  match jsonParse cleaned with
  | some (JsonValue.obj kvs) =>
    .currentItem ((dictFind kvs currentItemKey).getD (.str agendaSentinel))
  | some _ => .failure
  | none => .currentItem (.str (if 5 < cleaned.length then cleaned else agendaSentinel))

/-- Key `'explanations'`. -/
def explanationsKey : List Char := "explanations".data

/-- Key `'term'`. -/
def termKey : List Char := "term".data

/-- Key `'explanation'`. -/
def explanationKey : List Char := "explanation".data

/-- `isinstance(item, dict) and 'term' in item and 'explanation' in item`. -/
def isTermExplanation (v : JsonValue) : Bool :=
  match v with
  | .obj kvs => (dictFind kvs termKey).isSome && (dictFind kvs explanationKey).isSome
  | _ => false

/-- Response of `/api/explain-concepts` after a successful agent call. -/
inductive ExplainResult : Type where
  | explanations (xs : List JsonValue) : ExplainResult
  | failure : ExplainResult

/-- Normalization performed by `explain_concepts` (lines 476-492). -/
def explain_concepts (raw : List Char) : ExplainResult :=
  let cleaned := cleanText raw
  match jsonParse cleaned with
  | some (JsonValue.obj kvs) =>
    let e := (dictFind kvs explanationsKey).getD (.arr [])
    let xs := match e with | .arr xs => xs | _ => ([] : List JsonValue)
    .explanations (xs.filter isTermExplanation)
  | some _ => .failure
  | none => .explanations []

/-! ### The audio-ingestion endpoint `save_audio` -/

/-- Key `'text'`. -/
def textKey : List Char := "text".data

/-- The text appended to `transcript.txt` for a given transcription
response body (line 257: `transcription_data.get("text", "") + "\n\n"`).
`none` models the inner `except` swallowing the write: an `AttributeError`
when the body is not a dict, or a `TypeError` when `'text'` maps to a
non-string; in both cases nothing is appended and the error is only
logged. -/
def transcriptAppend (data : JsonValue) : Option (List Char) :=
  match data with
  | .obj kvs =>
    match (dictFind kvs textKey).getD (.str []) with
    | .str s => some (s ++ ('\n' :: '\n' :: []))
    | _ => none
  | _ => none

/-- Outcome of the ElevenLabs transcription call. -/
inductive TranscriptionOutcome : Type where
  | ok (data : JsonValue) : TranscriptionOutcome
  | requestError (detail : List Char) : TranscriptionOutcome

/-- The three response families of `/api/save-audio`:
`fileSaveError` is the 500 "Server error saving file" (lines 213-218),
`okTranscribed` is the 200 success response that carries the raw
transcription body (lines 263-267), `transcriptionFailed` is the 500
"Audio saved but transcription failed" (lines 297-309). -/
inductive SaveAudioResponse : Type where
  | fileSaveError : SaveAudioResponse
  | okTranscribed (transcription : JsonValue) : SaveAudioResponse
  | transcriptionFailed (detail : List Char) : SaveAudioResponse

/-- Response of `save_audio` as a function of whether the audio file was
saved and of the transcription outcome.  Transcript-file persistence does
not appear: its failure is caught at lines 259-262 and only logged. -/
def save_audio (audioFileSaved : Bool) (tr : TranscriptionOutcome) : SaveAudioResponse :=
  if !audioFileSaved then .fileSaveError
  else
    match tr with
    | .ok data => .okTranscribed data
    | .requestError d => .transcriptionFailed d

/-- What ends up appended to `transcript.txt`: nothing when transcription
failed or storage is unavailable. -/
def persistedTranscript (tr : TranscriptionOutcome) (storageOk : Bool) : Option (List Char) :=
  match tr with
  | .ok data => if storageOk then transcriptAppend data else none
  | .requestError _ => none

/-- Whether a `save_audio` response is an error (HTTP 500) response. -/
def isErrorResponse (r : SaveAudioResponse) : Bool :=
  match r with
  | .okTranscribed _ => false
  | _ => true

/-! ### Triage router (modelled from the spec) -/

/-- The three capability agents of the spec. -/
inductive Capability : Type where
  | summarizer : Capability
  | agendaChecker : Capability
  | questionAsker : Capability
deriving DecidableEq, Repr

/-- The router-level failure mode of the spec. -/
inductive RoutingError : Type where
  | routingIndecision : RoutingError
deriving DecidableEq, Repr

/-- Routing outcomes have decidable equality. -/
instance : DecidableEq (Except RoutingError Capability) := fun a b =>
  match a, b with
  | .ok x, .ok y =>
    if h : x = y then isTrue (by rw [h]) else isFalse (fun he => h (Except.ok.inj he))
  | .error x, .error y =>
    if h : x = y then isTrue (by rw [h]) else isFalse (fun he => h (Except.error.inj he))
  | .ok _, .error _ => isFalse (fun he => Except.noConfusion he)
  | .error _, .ok _ => isFalse (fun he => Except.noConfusion he)

/-- Modelled from the spec: the Triage Router of §4.3 is not implemented
under `src/` (the Flask API only exposes one route handler per capability;
the selection among them is made by the caller).  Following §4.3, the
router evaluates three non-exclusive hand-off conditions in fixed priority
order — conversation complete, agenda drift, clarification warranted — and
hands off to the corresponding single capability agent; when its decision
logic produces no decision it surfaces `RoutingIndecisionError` instead of
defaulting. -/
def triage (conversationComplete agendaDrift needsClarification : Bool) :
    Except RoutingError Capability :=
  if conversationComplete then .ok .summarizer
  else if agendaDrift then .ok .agendaChecker
  else if needsClarification then .ok .questionAsker
  else .error .routingIndecision

/-! ### Helpers for stating counterexamples -/

/-- `leadsWith needle hay`: `hay` begins with `needle`. -/
def leadsWith : List Char → List Char → Bool
  | [], _ => true
  | _ :: _, [] => false
  | a :: as, b :: bs => a = b && leadsWith as bs

/-- `hasSeg needle hay`: `needle` occurs contiguously inside `hay`. -/
def hasSeg (nd : List Char) : List Char → Bool
  | [] => leadsWith nd []
  | c :: cs => leadsWith nd (c :: cs) || hasSeg nd cs

/-- Wrap a text in a markdown code fence with the given language tag. -/
def fenceWrap (tag s : List Char) : List Char :=
  fenceDelim ++ tag ++ '\n' :: (s ++ '\n' :: fenceDelim)

/-! ### Concrete example inputs -/

/-- The two-newline separator appended after each transcript. -/
def nnSep : List Char := '\n' :: '\n' :: []

/-- Raw agent output `{"summary": "hi"}`. -/
def exSummaryHi : List Char := "\x7b\"summary\": \"hi\"\x7d".data

/-- Raw agent output `{"foo": 1}`: valid JSON object without the expected
keys. -/
def exObjFoo : List Char := "\x7b\"foo\": 1\x7d".data

/-- Raw agent output `[1, 2]`: valid JSON that is not an object. -/
def exArr12 : List Char := "[1, 2]".data

/-- Raw agent output beginning with an error-indicating token. -/
def exErrText : List Char := "error: rate limited".data

/-- Whitespace-only raw agent output. -/
def exWsOnly : List Char := "  \n ".data

/-- Raw agent output `{"prompts": 3}` whose `prompts` value is not a list. -/
def exPrompts3 : List Char := "\x7b\"prompts\": 3\x7d".data

/-- The summarizer scenario output of the spec. -/
def exTeam : List Char := "\x7b\"summary\": \"Team concluded the meeting.\"\x7d".data

/-- A diarized transcription response carrying speaker-tagged word
segments but no top-level `text` field. -/
def exSegA : JsonValue :=
  .obj [("words".data, .arr [.obj [("text".data, .str "hello".data),
    ("speaker_id".data, .str "speaker_0".data)]])]

/-- Another transcription response without a top-level `text` field. -/
def exSegB : JsonValue := .obj [("segments".data, .arr [])]

/-- A transcription response with a flat `text` field. -/
def exTextResp : JsonValue := .obj [("text".data, .str "hi there".data)]

/-- First characters of JSON values accepted by `parseValue`. -/
def isOpener (c : Char) : Bool :=
  c = lbrace || c = '[' || c = '"' || c = 't' || c = 'f' || c = 'n' ||
  c = 'N' || c = 'I' || c = '-' || c.isDigit

/-- Last characters of JSON values accepted by `parseValue`. -/
def isCloser (c : Char) : Bool :=
  c = rbrace || c = ']' || c = '"' || c = 'e' || c = 'l' || c = 'N' ||
  c = 'y' || c.isDigit

/-! ### Small auxiliary lemmas -/

theorem cleanText_nil_of_all_ws (o : List Char) (h : ∀ c ∈ o, isPyWs c = true) :
    cleanText o = [] := by
  have h1 : o.dropWhile isPyWs = [] := List.dropWhile_eq_nil_iff.mpr h
  unfold cleanText pyStrip
  rw [h1]
  rfl

theorem jsonWs_pyWs {c : Char} (h : isJsonWs c = true) : isPyWs c = true := by
  simp [isPyWs, h]

theorem pyWs_not_digit (c : Char) (h : isPyWs c = true) : c.isDigit = false := by
  simp only [isPyWs, isJsonWs, Bool.or_eq_true, decide_eq_true_eq] at h
  rcases h with ((((h | h) | h) | h) | h) | h <;> subst h <;> decide

theorem digit_not_pyWs (c : Char) (h : c.isDigit = true) : isPyWs c = false := by
  cases hp : isPyWs c
  · rfl
  · rw [pyWs_not_digit c hp] at h
    exact Bool.noConfusion h

theorem digit_ne_of_not_digit (c d : Char) (hc : c.isDigit = true) (hd : d.isDigit = false) :
    c ≠ d := by
  intro he
  subst he
  rw [hc] at hd
  exact Bool.noConfusion hd

theorem opener_not_pyWs (c : Char) (h : isOpener c = true) : isPyWs c = false := by
  simp only [isOpener, Bool.or_eq_true, decide_eq_true_eq] at h
  rcases h with ((((((((rfl | rfl) | rfl) | rfl) | rfl) | rfl) | rfl) | rfl) | rfl) | h
  all_goals first
    | exact digit_not_pyWs _ h
    | decide

theorem opener_ne_bq (c : Char) (h : isOpener c = true) : c ≠ bq := by
  simp only [isOpener, Bool.or_eq_true, decide_eq_true_eq] at h
  rcases h with ((((((((rfl | rfl) | rfl) | rfl) | rfl) | rfl) | rfl) | rfl) | rfl) | h
  all_goals first
    | exact digit_ne_of_not_digit _ bq h (by decide)
    | decide

theorem closer_not_pyWs (c : Char) (h : isCloser c = true) : isPyWs c = false := by
  simp only [isCloser, Bool.or_eq_true, decide_eq_true_eq] at h
  rcases h with ((((((rfl | rfl) | rfl) | rfl) | rfl) | rfl) | rfl) | h
  all_goals first
    | exact digit_not_pyWs _ h
    | decide

theorem closer_ne_bq (c : Char) (h : isCloser c = true) : c ≠ bq := by
  simp only [isCloser, Bool.or_eq_true, decide_eq_true_eq] at h
  rcases h with ((((((rfl | rfl) | rfl) | rfl) | rfl) | rfl) | rfl) | h
  all_goals first
    | exact digit_ne_of_not_digit _ bq h (by decide)
    | decide

theorem digit_closer (d : Char) (h : d.isDigit = true) : isCloser d = true := by
  simp [isCloser, h]

theorem dropWhile_append_all (p : Char → Bool) (l₁ l₂ : List Char)
    (h : ∀ c ∈ l₁, p c = true) :
    (l₁ ++ l₂).dropWhile p = l₂.dropWhile p := by
  induction l₁ with
  | nil => rfl
  | cons c l ih =>
    rw [List.cons_append, List.dropWhile_cons_of_pos (h c (List.mem_cons_self c l))]
    exact ih (fun x hx => h x (List.mem_cons_of_mem c hx))

theorem rdropWhile_append_all (p : Char → Bool) (l₁ l₂ : List Char)
    (h : ∀ c ∈ l₂, p c = true) :
    (l₁ ++ l₂).rdropWhile p = l₁.rdropWhile p := by
  simp only [List.rdropWhile, List.reverse_append]
  rw [dropWhile_append_all p l₂.reverse l₁.reverse (fun c hc => h c (List.mem_reverse.mp hc))]

theorem not_pyWs_true_of_false {c : Char} (h : isPyWs c = false) : ¬ (isPyWs c = true) := by
  rw [h]
  exact Bool.noConfusion

theorem dropWhile_suffix_py (p : Char → Bool) (l : List Char) : l.dropWhile p <:+ l :=
  ⟨l.takeWhile p, List.takeWhile_append_dropWhile p l⟩

theorem suffix_intro (pre l : List Char) : l <:+ pre ++ l := ⟨pre, rfl⟩

theorem suffix_cons_self (c : Char) (l : List Char) : l <:+ c :: l := ⟨[c], rfl⟩

/-! ### Claims -/

/-- C1: for every transcript content a triage invocation selects exactly one
of the three capability agents — Summarizer when the conversation appears
complete, else AgendaChecker on agenda drift, else QuestionAsker when
clarification is warranted — and when the decision logic produces no
decision a `RoutingIndecisionError` is surfaced instead of a silent
default. -/
theorem c1_triage_exactly_one_or_indecision :
    ∀ c d a : Bool,
      (triage c d a = .ok .summarizer ↔ c = true) ∧
      (triage c d a = .ok .agendaChecker ↔ (c = false ∧ d = true)) ∧
      (triage c d a = .ok .questionAsker ↔ (c = false ∧ d = false ∧ a = true)) ∧
      (triage c d a = .error .routingIndecision ↔ (c = false ∧ d = false ∧ a = false)) := by
  decide

/-- C2: every empty or whitespace-only raw worker output normalizes to the
sentinel narrative result "Could not extract summary." — never an
exception (`failure`) and never the whitespace itself. -/
theorem c2_whitespace_yields_sentinel (o : List Char) (h : ∀ c ∈ o, isPyWs c = true) :
    summarize_conversation o = .summary (.str summarySentinel) := by
  have h2 : cleanText o = [] := cleanText_nil_of_all_ws o h
  simp [summarize_conversation, h2]
  rfl

/-- Witness for C2 at the whitespace-only output `"  \n "`. -/
theorem c2_whitespace_yields_sentinel_witness :
    summarize_conversation exWsOnly = .summary (.str summarySentinel) :=
  c2_whitespace_yields_sentinel exWsOnly (by decide)

/-- C4: when the cleaned text fails structured parsing, normalization
returns the cleaned text as a narrative result if it is longer than 10
characters and does not begin (case-insensitively) with "error", and
otherwise the sentinel — in either case a 200 result, never the
exception path. -/
theorem c4_parse_failure_narrative_or_sentinel (o : List Char)
    (h : jsonParse (cleanText o) = none) :
    summarize_conversation o =
      .summary (.str (if 10 < (cleanText o).length && !startsWithError (cleanText o)
        then cleanText o else summarySentinel)) ∧
    summarize_conversation o ≠ .failure := by
  have h1 : summarize_conversation o =
      .summary (.str (if 10 < (cleanText o).length && !startsWithError (cleanText o)
        then cleanText o else summarySentinel)) := by
    simp only [summarize_conversation, h]
    split <;> rename_i hc <;> simp [hc]
  exact ⟨h1, by rw [h1]; intro hbad; exact SummarizeResult.noConfusion hbad⟩

/-- Witness for C4 at the spec scenario "error: rate limited": parsing
fails, the narrative fallback is rejected, the sentinel is returned. -/
theorem c4_parse_failure_witness :
    jsonParse (cleanText exErrText) = none ∧
    summarize_conversation exErrText = .summary (.str summarySentinel) := by
  have h := c4_parse_failure_narrative_or_sentinel exErrText rfl
  exact ⟨rfl, h.1.trans rfl⟩

/-- C5 counterexample: normalization is not idempotent.  For the raw
output `{"summary": "hi"}` the first normalization yields the summary
text "hi"; normalizing that result again yields the sentinel, a different
result. -/
theorem c5_counterexample :
    summarize_conversation exSummaryHi = .summary (.str "hi".data) ∧
    summarize_conversation "hi".data = .summary (.str summarySentinel) ∧
    summarySentinel ≠ "hi".data := by
  refine ⟨rfl, rfl, by decide⟩

/-- C5 amended: the sentinel result is a stable fixed point of
normalization — normalizing the sentinel text returns the same sentinel
result — though idempotence fails in general. -/
theorem c5_amended_sentinel_fixed_point :
    summarize_conversation summarySentinel = .summary (.str summarySentinel) := rfl

/-- C3 counterexample: for the cleaned text `{"foo": 1}` — which parses
as a JSON object lacking `current_item` — the agenda endpoint returns the
sentinel "Could not determine current item.", not the cleaned text. -/
theorem c3_counterexample :
    get_current_agenda exObjFoo = .currentItem (.str agendaSentinel) ∧
    agendaSentinel ≠ cleanText exObjFoo := ⟨rfl, by decide⟩

/-- C3 amended: only the summarizer falls back to the cleaned text when
the parsed object lacks its expected field; `get_prompts` substitutes the
empty list and `get_current_agenda` substitutes its sentinel. -/
theorem c3_missing_field_fallbacks (o : List Char) (kvs : List (List Char × JsonValue))
    (h : jsonParse (cleanText o) = some (.obj kvs)) :
    (dictFind kvs summaryKey = none →
      summarize_conversation o = .summary (.str (cleanText o))) ∧
    (dictFind kvs promptsKey = none → get_prompts o = .prompts []) ∧
    (dictFind kvs currentItemKey = none →
      get_current_agenda o = .currentItem (.str agendaSentinel)) := by
  refine ⟨fun h1 => ?_, fun h2 => ?_, fun h3 => ?_⟩
  · simp [summarize_conversation, h, h1]
  · simp [get_prompts, h, h2]
  · simp [get_current_agenda, h, h3]

/-- Witness for C3 (amended) at `{"foo": 1}`. -/
theorem c3_missing_field_fallbacks_witness :
    summarize_conversation exObjFoo = .summary (.str (cleanText exObjFoo)) ∧
    get_prompts exObjFoo = .prompts [] ∧
    get_current_agenda exObjFoo = .currentItem (.str agendaSentinel) := by
  have h := c3_missing_field_fallbacks exObjFoo [("foo".data, JsonValue.num ['1'])] rfl
  exact ⟨h.1 rfl, h.2.1 rfl, h.2.2 rfl⟩

/-- C7 counterexample: for a diarized response with a speaker-tagged
segment saying "hello" and no flat `text` field, the pipeline appends
only the blank-line separator — no speaker label, no segment content. -/
theorem c7_counterexample :
    transcriptAppend exSegA = some nnSep ∧
    hasSeg "hello".data nnSep = false ∧
    hasSeg "Speaker".data nnSep = false := ⟨rfl, rfl, rfl⟩

/-- C7 amended: transcript extraction reads only the flat `text` field:
a string-valued `text` field is appended with the separator, a missing
`text` field appends just the separator, and diarized segments are never
consulted. -/
theorem c7_flat_text_only (kvs : List (List Char × JsonValue)) (s : List Char) :
    (dictFind kvs textKey = some (.str s) →
      transcriptAppend (.obj kvs) = some (s ++ nnSep)) ∧
    (dictFind kvs textKey = none → transcriptAppend (.obj kvs) = some nnSep) := by
  constructor <;> intro h <;> simp [transcriptAppend, h, nnSep]

/-- Witness for C7 (amended) at a flat-text response and at a diarized
response. -/
theorem c7_flat_text_only_witness :
    transcriptAppend (.obj [("text".data, .str "hi".data)]) = some ("hi".data ++ nnSep) ∧
    transcriptAppend exSegB = some nnSep := by
  have h1 := c7_flat_text_only [("text".data, JsonValue.str "hi".data)] "hi".data
  have h2 := c7_flat_text_only [("segments".data, JsonValue.arr [])] []
  exact ⟨h1.1 rfl, h2.2 rfl⟩

/-- C8 counterexample: two different unrecognized transcription responses
persist the identical separator-only text, so the persisted transcript
cannot be the serialized raw response; the data is not persisted. -/
theorem c8_counterexample :
    transcriptAppend exSegA = some nnSep ∧
    transcriptAppend exSegB = some nnSep ∧
    exSegA ≠ exSegB := by
  refine ⟨rfl, rfl, fun h => ?_⟩
  have h2 := JsonValue.obj.inj h
  injection h2 with h3 _
  have h4 := congrArg Prod.fst h3
  exact absurd h4 (by decide)

/-- C8 amended: a response without a `text` field appends only the
separator to the transcript file; the raw response is not persisted there
but is returned to the caller inside the success response body. -/
theorem c8_no_text_appends_separator (kvs : List (List Char × JsonValue))
    (h : dictFind kvs textKey = none) :
    transcriptAppend (.obj kvs) = some nnSep ∧
    save_audio true (.ok (.obj kvs)) = .okTranscribed (.obj kvs) :=
  ⟨by simp [transcriptAppend, h, nnSep], rfl⟩

/-- Witness for C8 (amended) at the diarized response. -/
theorem c8_no_text_appends_separator_witness :
    transcriptAppend exSegA = some nnSep ∧
    save_audio true (.ok exSegA) = .okTranscribed exSegA := by
  have h := c8_no_text_appends_separator
    [("words".data, JsonValue.arr [.obj [("text".data, .str "hello".data),
      ("speaker_id".data, .str "speaker_0".data)]])] rfl
  exact h

/-- C9 counterexample: when transcript persistence fails (storage
unavailable) nothing is appended, yet the response is the 200 success
response — the caller receives no error at all, so no distinct storage
error is reported. -/
theorem c9_counterexample :
    persistedTranscript (.ok exTextResp) false = none ∧
    isErrorResponse (save_audio true (.ok exTextResp)) = false := ⟨rfl, rfl⟩

/-- C9 amended: transcript-persistence failure is swallowed — the
response is the success response regardless, so a storage failure during
transcript persistence is never reported as a transcription failure;
a transcription failure is reported by the distinct error response
"Audio saved but transcription failed", which also differs from the
audio-file storage error response. -/
theorem c9_failure_domains (data : JsonValue) (d : List Char) :
    save_audio true (.ok data) = .okTranscribed data ∧
    persistedTranscript (.ok data) false = none ∧
    isErrorResponse (save_audio true (.ok data)) = false ∧
    save_audio true (.requestError d) = .transcriptionFailed d ∧
    isErrorResponse (.transcriptionFailed d) = true ∧
    SaveAudioResponse.transcriptionFailed d ≠ .fileSaveError :=
  ⟨rfl, rfl, rfl, rfl, rfl, fun h => SaveAudioResponse.noConfusion h⟩

/-- C10 counterexample: for the raw output `[1, 2]` — valid JSON that is
not an object — both endpoints hit the `AttributeError` path and return a
500 error response, not a list. -/
theorem c10_counterexample :
    get_prompts exArr12 = .failure ∧ explain_concepts exArr12 = .failure := ⟨rfl, rfl⟩

/-- C10 amended: unless the cleaned text parses to a non-object JSON
value (which raises and yields a 500 error), `get_prompts` always returns
a list — empty on parse failure and when the `prompts` value is not a
list — and `explain_concepts` always returns a list whose elements all
are objects with `term` and `explanation` keys. -/
theorem c10_list_invariants (o : List Char) :
    (jsonParse (cleanText o) = none →
      get_prompts o = .prompts [] ∧ explain_concepts o = .explanations []) ∧
    (∀ kvs, jsonParse (cleanText o) = some (.obj kvs) →
      (∃ xs, get_prompts o = .prompts xs) ∧
      (∀ v, dictFind kvs promptsKey = some v → (∀ xs, v ≠ .arr xs) →
        get_prompts o = .prompts []) ∧
      (∀ ys, explain_concepts o = .explanations ys →
        ∀ y ∈ ys, isTermExplanation y = true)) := by
  constructor
  · intro h
    exact ⟨by simp [get_prompts, h], by simp [explain_concepts, h]⟩
  · intro kvs h
    refine ⟨?_, ?_, ?_⟩
    · simp only [get_prompts, h]
      rcases hv : (dictFind kvs promptsKey).getD (.arr []) with _ | _ | _ | _ | xs | _
      · exact ⟨[], rfl⟩
      · exact ⟨[], rfl⟩
      · exact ⟨[], rfl⟩
      · exact ⟨[], rfl⟩
      · exact ⟨xs, rfl⟩
      · exact ⟨[], rfl⟩
    · intro v hv hnotarr
      have hgd : (dictFind kvs promptsKey).getD (.arr []) = v := by rw [hv]; rfl
      simp only [get_prompts, h, hgd]
    · intro ys hys y hy
      simp only [explain_concepts, h] at hys
      injection hys with hys2
      rw [← hys2] at hy
      exact List.of_mem_filter hy

/-- Witness for C10 (amended): a non-list `prompts` value is coerced to
the empty list, and parse failure yields the empty explanations list. -/
theorem c10_list_invariants_witness :
    get_prompts exPrompts3 = .prompts [] ∧
    explain_concepts "notjson".data = .explanations [] := by
  have h1 := ((c10_list_invariants exPrompts3).2 [("prompts".data, JsonValue.num ['3'])]
    rfl).2.1 (JsonValue.num ['3']) rfl (fun xs hx => JsonValue.noConfusion hx)
  have h2 := ((c10_list_invariants "notjson".data).1 rfl).2
  exact ⟨h1, h2⟩


theorem parseStringBody_suffix : ∀ (f : Nat) (cs s rest : List Char),
    parseStringBody f cs = some (s, rest) → ∃ pre, cs = pre ++ '"' :: rest := by
  intro f
  induction f with
  | zero => intro cs s rest h; simp [parseStringBody] at h
  | succ f ih =>
    intro cs s rest h
    match cs with
    | [] => simp [parseStringBody] at h
    | c :: l =>
      simp only [parseStringBody] at h
      split_ifs at h with hq hesc hctl
      · have h2 : (([] : List Char), l) = (s, rest) := Option.some.inj h
        have hrest : l = rest := congrArg Prod.snd h2
        exact ⟨[], by simp [hq, hrest]⟩
      · rcases l with _ | ⟨e, l2⟩
        · exact absurd h (by simp)
        · dsimp only at h
          rcases hesc2 : escChar e with _ | d
          · rw [hesc2] at h
            exact Option.noConfusion h
          · rw [hesc2] at h
            dsimp only at h
            rcases hrec : parseStringBody f l2 with _ | ⟨s2, r2⟩
            · rw [hrec] at h
              exact absurd h (by simp)
            · rw [hrec] at h
              have h2 : (d :: s2, r2) = (s, rest) := Option.some.inj h
              have hrest : r2 = rest := congrArg Prod.snd h2
              obtain ⟨pre, hpre⟩ := ih l2 s2 r2 hrec
              exact ⟨c :: e :: pre, by rw [hpre, hrest]; rfl⟩
      · rcases hrec : parseStringBody f l with _ | ⟨s2, r2⟩
        · rw [hrec] at h
          exact absurd h (by simp)
        · rw [hrec] at h
          have h2 : (c :: s2, r2) = (s, rest) := Option.some.inj h
          have hrest : r2 = rest := congrArg Prod.snd h2
          obtain ⟨pre, hpre⟩ := ih l s2 r2 hrec
          exact ⟨c :: pre, by rw [hpre, hrest]; rfl⟩

theorem takeWhile_digits_decomp (l : List Char) :
    l.takeWhile Char.isDigit = [] ∨
    ∃ q d, l.takeWhile Char.isDigit = q ++ [d] ∧ d.isDigit = true := by
  rcases List.eq_nil_or_concat (l.takeWhile Char.isDigit) with h | ⟨q, d, h⟩
  · exact Or.inl h
  · rw [List.concat_eq_append] at h
    refine Or.inr ⟨q, d, h, ?_⟩
    have hd : d ∈ l.takeWhile Char.isDigit := by
      rw [h]
      exact List.mem_append_right q (List.mem_singleton_self d)
    exact List.mem_takeWhile_imp hd

theorem takeWhile_drop_split (l rest : List Char) (h : l.dropWhile Char.isDigit = rest) :
    l = l.takeWhile Char.isDigit ++ rest := by
  rw [← h]
  exact (List.takeWhile_append_dropWhile Char.isDigit l).symm

theorem parseIntPart_decomp (cs ip rest : List Char) (h : parseIntPart cs = some (ip, rest)) :
    ∃ pre d, cs = pre ++ d :: rest ∧ d.isDigit = true := by
  match cs with
  | [] => simp [parseIntPart] at h
  | c :: r =>
    simp only [parseIntPart] at h
    split_ifs at h with h0 hdig
    · have h2 : ([c], r) = (ip, rest) := Option.some.inj h
      have hrest : r = rest := congrArg Prod.snd h2
      exact ⟨[], c, by simp [hrest], by rw [h0]; decide⟩
    · have h2 : (c :: r.takeWhile Char.isDigit, r.dropWhile Char.isDigit) = (ip, rest) :=
        Option.some.inj h
      have hrest : r.dropWhile Char.isDigit = rest := congrArg Prod.snd h2
      have hr := takeWhile_drop_split r rest hrest
      rcases takeWhile_digits_decomp r with htw | ⟨q, d, htw, hd⟩
      · rw [htw, List.nil_append] at hr
        exact ⟨[], c, by simp [hr], hdig⟩
      · rw [htw] at hr
        exact ⟨c :: q, d, by rw [hr]; simp, hd⟩

theorem parseFracPart_decomp (cs fp rest : List Char) (h : parseFracPart cs = some (fp, rest)) :
    cs = rest ∨ ∃ pre d, cs = pre ++ d :: rest ∧ d.isDigit = true := by
  match cs with
  | [] =>
    have h2 : (([] : List Char), ([] : List Char)) = (fp, rest) := Option.some.inj h
    exact Or.inl (congrArg Prod.snd h2)
  | c :: r =>
    simp only [parseFracPart] at h
    by_cases hdot : c = '.'
    · rw [if_pos hdot] at h
      by_cases hds : r.takeWhile Char.isDigit = []
      · rw [if_pos hds] at h
        exact absurd h (by simp)
      · rw [if_neg hds] at h
        have h2 : (c :: r.takeWhile Char.isDigit, r.dropWhile Char.isDigit) = (fp, rest) :=
          Option.some.inj h
        have hrest : r.dropWhile Char.isDigit = rest := congrArg Prod.snd h2
        have hr := takeWhile_drop_split r rest hrest
        rcases takeWhile_digits_decomp r with htw | ⟨q, d, htw, hd⟩
        · exact absurd htw hds
        · rw [htw] at hr
          exact Or.inr ⟨c :: q, d, by rw [hr]; simp, hd⟩
    · rw [if_neg hdot] at h
      have h2 : (([] : List Char), c :: r) = (fp, rest) := Option.some.inj h
      exact Or.inl (congrArg Prod.snd h2)

theorem splitSign_append (r : List Char) : r = (splitSign r).1 ++ (splitSign r).2 := by
  match r with
  | [] => rfl
  | s :: r2 =>
    simp only [splitSign]
    split_ifs with hs
    · rfl
    · rfl

theorem splitNeg_append (cs : List Char) : cs = (splitNeg cs).1 ++ (splitNeg cs).2 := by
  match cs with
  | [] => rfl
  | c :: r =>
    simp only [splitNeg]
    split_ifs with hc
    · rfl
    · rfl

theorem parseExpPart_decomp (cs fp rest : List Char) (h : parseExpPart cs = some (fp, rest)) :
    cs = rest ∨ ∃ pre d, cs = pre ++ d :: rest ∧ d.isDigit = true := by
  match cs with
  | [] =>
    have h2 : (([] : List Char), ([] : List Char)) = (fp, rest) := Option.some.inj h
    exact Or.inl (congrArg Prod.snd h2)
  | c :: r =>
    simp only [parseExpPart] at h
    by_cases he : (c = 'e' || c = 'E') = true
    · rw [if_pos he] at h
      by_cases hds : (splitSign r).2.takeWhile Char.isDigit = []
      · rw [if_pos hds] at h
        exact absurd h (by simp)
      · rw [if_neg hds] at h
        have h2 : (c :: (splitSign r).1 ++ (splitSign r).2.takeWhile Char.isDigit,
            (splitSign r).2.dropWhile Char.isDigit) = (fp, rest) := Option.some.inj h
        have hrest : (splitSign r).2.dropWhile Char.isDigit = rest := congrArg Prod.snd h2
        have hr := takeWhile_drop_split (splitSign r).2 rest hrest
        rcases takeWhile_digits_decomp (splitSign r).2 with htw | ⟨q, d, htw, hd⟩
        · exact absurd htw hds
        · rw [htw] at hr
          refine Or.inr ⟨c :: (splitSign r).1 ++ q, d, ?_, hd⟩
          conv_lhs => rw [splitSign_append r, hr]
          simp
    · rw [if_neg he] at h
      have h2 : (([] : List Char), c :: r) = (fp, rest) := Option.some.inj h
      exact Or.inl (congrArg Prod.snd h2)

theorem parseNumber_decomp (cs lex rest : List Char) (h : parseNumber cs = some (lex, rest)) :
    ∃ pre d, cs = pre ++ d :: rest ∧ d.isDigit = true := by
  simp only [parseNumber] at h
  rcases hint : parseIntPart (splitNeg cs).2 with _ | ⟨ip, cs2⟩
  · rw [hint] at h
    exact absurd h (by simp)
  · rw [hint] at h
    dsimp only at h
    rcases hfrac : parseFracPart cs2 with _ | ⟨fp, cs3⟩
    · rw [hfrac] at h
      exact absurd h (by simp)
    · rw [hfrac] at h
      dsimp only at h
      rcases hexp : parseExpPart cs3 with _ | ⟨ep, cs4⟩
      · rw [hexp] at h
        exact absurd h (by simp)
      · rw [hexp] at h
        have h2 : ((splitNeg cs).1 ++ ip ++ fp ++ ep, cs4) = (lex, rest) := Option.some.inj h
        have hrest : cs4 = rest := congrArg Prod.snd h2
        rw [← hrest]
        have hcs := splitNeg_append cs
        obtain ⟨pre5, d5, h5, hd5⟩ := parseIntPart_decomp (splitNeg cs).2 ip cs2 hint
        rcases parseExpPart_decomp cs3 ep cs4 hexp with h3 | ⟨pre3, d3, h3, hd3⟩
        · rcases parseFracPart_decomp cs2 fp cs3 hfrac with h4 | ⟨pre4, d4, h4, hd4⟩
          · refine ⟨(splitNeg cs).1 ++ pre5, d5, ?_, hd5⟩
            conv_lhs => rw [hcs]
            rw [h5, h4, h3]
            simp
          · refine ⟨(splitNeg cs).1 ++ pre5 ++ d5 :: pre4, d4, ?_, hd4⟩
            conv_lhs => rw [hcs]
            rw [h5, h4, h3]
            simp
        · rcases parseFracPart_decomp cs2 fp cs3 hfrac with h4 | ⟨pre4, d4, h4, hd4⟩
          · refine ⟨(splitNeg cs).1 ++ pre5 ++ d5 :: pre3, d3, ?_, hd3⟩
            conv_lhs => rw [hcs]
            rw [h5, h4, h3]
            simp
          · refine ⟨(splitNeg cs).1 ++ pre5 ++ d5 :: pre4 ++ d4 :: pre3, d3, ?_, hd3⟩
            conv_lhs => rw [hcs]
            rw [h5, h4, h3]
            simp


theorem skipWs_suffix (r : List Char) : skipWs r <:+ r :=
  dropWhile_suffix_py isJsonWs r

theorem suffix_of_eq_append {l pre rest : List Char} (h : l = pre ++ rest) : rest <:+ l :=
  ⟨pre, h.symm⟩

theorem suffix_of_mid {l pre rest : List Char} {c : Char} (h : l = pre ++ c :: rest) :
    rest <:+ l := ⟨pre ++ [c], by rw [h]; simp⟩

theorem lit_branch (c : Char) (r lit rest : List Char) (k : Nat)
    (ht : r.take k = lit) (hrest : r.drop k = rest) (init : List Char) (last : Char)
    (hlit : lit = init ++ [last]) :
    ∃ pre, c :: r = pre ++ last :: rest := by
  refine ⟨c :: init, ?_⟩
  conv_lhs => rw [← List.take_append_drop k r, ht, hrest, hlit]
  simp

theorem parseValue_head (f : Nat) (cs : List Char) (v : JsonValue) (rest : List Char)
    (h : parseValue f cs = some (v, rest)) : ∃ c l, cs = c :: l ∧ isOpener c = true := by
  match f, cs with
  | 0, cs => simp [parseValue] at h
  | f + 1, [] => simp [parseValue] at h
  | f + 1, c :: l =>
    refine ⟨c, l, rfl, ?_⟩
    by_contra hop
    have hop2 : isOpener c = false := by
      cases hb : isOpener c
      · rfl
      · exact absurd hb hop
    simp only [isOpener, Bool.or_eq_false_iff, decide_eq_false_iff_not] at hop2
    obtain ⟨⟨⟨⟨⟨⟨⟨⟨⟨h1, h2⟩, h3⟩, h4⟩, h5⟩, h6⟩, h7⟩, h8⟩, h9⟩, h10⟩ := hop2
    simp [parseValue, h1, h2, h3, h4, h5, h6, h7, h8, h9, h10] at h

theorem parse_suffix_closer : ∀ f : Nat,
    (∀ cs v rest, parseValue f cs = some (v, rest) →
      ∃ c, isCloser c = true ∧ ∃ pre, cs = pre ++ c :: rest) ∧
    (∀ cs kvs rest, parseMembers f cs = some (kvs, rest) → rest <:+ cs) ∧
    (∀ cs xs rest, parseElements f cs = some (xs, rest) → rest <:+ cs) := by
  intro f
  induction f with
  | zero =>
    refine ⟨?_, ?_, ?_⟩
    · intro cs v rest h; simp [parseValue] at h
    · intro cs kvs rest h; simp [parseMembers] at h
    · intro cs xs rest h; simp [parseElements] at h
  | succ f ih =>
    obtain ⟨ihv, ihm, ihe⟩ := ih
    refine ⟨?_, ?_, ?_⟩
    · intro cs v rest h
      match cs with
      | [] => simp [parseValue] at h
      | c :: r =>
        simp only [parseValue] at h
        by_cases hbrace : c = lbrace
        · rw [if_pos hbrace] at h
          rcases hsw : skipWs r with _ | ⟨d, r2⟩
          · rw [hsw] at h
            exact Option.noConfusion h
          · rw [hsw] at h
            dsimp only at h
            have hr : r = r.takeWhile isJsonWs ++ (d :: r2) := by
              conv_lhs => rw [← List.takeWhile_append_dropWhile isJsonWs r]
              rw [show r.dropWhile isJsonWs = d :: r2 from hsw]
            by_cases hd : d = rbrace
            · rw [if_pos hd] at h
              have h2 : (JsonValue.obj [], r2) = (v, rest) := Option.some.inj h
              have hrest : r2 = rest := congrArg Prod.snd h2
              refine ⟨rbrace, by decide, c :: r.takeWhile isJsonWs, ?_⟩
              have h0 : c :: r = c :: (r.takeWhile isJsonWs ++ (d :: r2)) := by
                conv_lhs => rw [hr]
              rw [h0, hd, hrest]
              simp
            · rw [if_neg hd] at h
              rcases hm : parseMembers f (d :: r2) with _ | ⟨kvs2, rest1⟩
              · rw [hm] at h
                exact Option.noConfusion h
              · rw [hm] at h
                dsimp only at h
                rcases rest1 with _ | ⟨e, r3⟩
                · exact Option.noConfusion h
                · dsimp only at h
                  by_cases he : e = rbrace
                  · rw [if_pos he] at h
                    have h2 : (JsonValue.obj kvs2, r3) = (v, rest) := Option.some.inj h
                    have hrest : r3 = rest := congrArg Prod.snd h2
                    obtain ⟨t, ht⟩ := ihm (d :: r2) kvs2 (e :: r3) hm
                    refine ⟨rbrace, by decide, c :: (r.takeWhile isJsonWs ++ t), ?_⟩
                    have h0 : c :: r = c :: (r.takeWhile isJsonWs ++ (d :: r2)) := by
                      conv_lhs => rw [hr]
                    rw [h0, ← ht, he, hrest]
                    simp
                  · rw [if_neg he] at h
                    exact Option.noConfusion h
        · rw [if_neg hbrace] at h
          by_cases hbrack : c = '['
          · rw [if_pos hbrack] at h
            rcases hsw : skipWs r with _ | ⟨d, r2⟩
            · rw [hsw] at h
              exact Option.noConfusion h
            · rw [hsw] at h
              dsimp only at h
              have hr : r = r.takeWhile isJsonWs ++ (d :: r2) := by
                conv_lhs => rw [← List.takeWhile_append_dropWhile isJsonWs r]
                rw [show r.dropWhile isJsonWs = d :: r2 from hsw]
              by_cases hd : d = ']'
              · rw [if_pos hd] at h
                have h2 : (JsonValue.arr [], r2) = (v, rest) := Option.some.inj h
                have hrest : r2 = rest := congrArg Prod.snd h2
                refine ⟨']', by decide, c :: r.takeWhile isJsonWs, ?_⟩
                have h0 : c :: r = c :: (r.takeWhile isJsonWs ++ (d :: r2)) := by
                  conv_lhs => rw [hr]
                rw [h0, hd, hrest]
                simp
              · rw [if_neg hd] at h
                rcases hel : parseElements f (d :: r2) with _ | ⟨xs2, rest1⟩
                · rw [hel] at h
                  exact Option.noConfusion h
                · rw [hel] at h
                  dsimp only at h
                  rcases rest1 with _ | ⟨e, r3⟩
                  · exact Option.noConfusion h
                  · dsimp only at h
                    by_cases he : e = ']'
                    · rw [if_pos he] at h
                      have h2 : (JsonValue.arr xs2, r3) = (v, rest) := Option.some.inj h
                      have hrest : r3 = rest := congrArg Prod.snd h2
                      obtain ⟨t, ht⟩ := ihe (d :: r2) xs2 (e :: r3) hel
                      refine ⟨']', by decide, c :: (r.takeWhile isJsonWs ++ t), ?_⟩
                      have h0 : c :: r = c :: (r.takeWhile isJsonWs ++ (d :: r2)) := by
                        conv_lhs => rw [hr]
                      rw [h0, ← ht, he, hrest]
                      simp
                    · rw [if_neg he] at h
                      exact Option.noConfusion h
          · rw [if_neg hbrack] at h
            by_cases hquote : c = '"'
            · rw [if_pos hquote] at h
              rcases hsb : parseStringBody f r with _ | ⟨s2, r2⟩
              · rw [hsb] at h
                exact Option.noConfusion h
              · rw [hsb] at h
                have h2 : (JsonValue.str s2, r2) = (v, rest) := Option.some.inj h
                have hrest : r2 = rest := congrArg Prod.snd h2
                obtain ⟨pre0, hpre0⟩ := parseStringBody_suffix f r s2 r2 hsb
                refine ⟨'"', by decide, c :: pre0, ?_⟩
                have h0 : c :: r = c :: (pre0 ++ '"' :: r2) := by
                  conv_lhs => rw [hpre0]
                rw [h0, hrest]
                simp
            · rw [if_neg hquote] at h
              by_cases hth : c = 't'
              · rw [if_pos hth] at h
                by_cases htake : r.take 3 = "rue".data
                · rw [if_pos htake] at h
                  have h2 : (JsonValue.bool true, r.drop 3) = (v, rest) := Option.some.inj h
                  have hrest : r.drop 3 = rest := congrArg Prod.snd h2
                  exact ⟨'e', by decide,
                    lit_branch c r "rue".data rest 3 htake hrest ('r' :: 'u' :: []) 'e' (by decide)⟩
                · rw [if_neg htake] at h
                  exact Option.noConfusion h
              · rw [if_neg hth] at h
                by_cases hfh : c = 'f'
                · rw [if_pos hfh] at h
                  by_cases htake : r.take 4 = "alse".data
                  · rw [if_pos htake] at h
                    have h2 : (JsonValue.bool false, r.drop 4) = (v, rest) := Option.some.inj h
                    have hrest : r.drop 4 = rest := congrArg Prod.snd h2
                    exact ⟨'e', by decide, lit_branch c r "alse".data rest 4 htake hrest
                      ('a' :: 'l' :: 's' :: []) 'e' (by decide)⟩
                  · rw [if_neg htake] at h
                    exact Option.noConfusion h
                · rw [if_neg hfh] at h
                  by_cases hnh : c = 'n'
                  · rw [if_pos hnh] at h
                    by_cases htake : r.take 3 = "ull".data
                    · rw [if_pos htake] at h
                      have h2 : (JsonValue.null, r.drop 3) = (v, rest) := Option.some.inj h
                      have hrest : r.drop 3 = rest := congrArg Prod.snd h2
                      exact ⟨'l', by decide,
                        lit_branch c r "ull".data rest 3 htake hrest ('u' :: 'l' :: []) 'l' (by decide)⟩
                    · rw [if_neg htake] at h
                      exact Option.noConfusion h
                  · rw [if_neg hnh] at h
                    by_cases hNh : c = 'N'
                    · rw [if_pos hNh] at h
                      by_cases htake : r.take 2 = "aN".data
                      · rw [if_pos htake] at h
                        have h2 : (JsonValue.num "NaN".data, r.drop 2) = (v, rest) :=
                          Option.some.inj h
                        have hrest : r.drop 2 = rest := congrArg Prod.snd h2
                        exact ⟨'N', by decide,
                          lit_branch c r "aN".data rest 2 htake hrest ('a' :: []) 'N' (by decide)⟩
                      · rw [if_neg htake] at h
                        exact Option.noConfusion h
                    · rw [if_neg hNh] at h
                      by_cases hIh : c = 'I'
                      · rw [if_pos hIh] at h
                        by_cases htake : r.take 7 = "nfinity".data
                        · rw [if_pos htake] at h
                          have h2 : (JsonValue.num "Infinity".data, r.drop 7) = (v, rest) :=
                            Option.some.inj h
                          have hrest : r.drop 7 = rest := congrArg Prod.snd h2
                          exact ⟨'y', by decide, lit_branch c r "nfinity".data rest 7 htake hrest
                            ('n' :: 'f' :: 'i' :: 'n' :: 'i' :: 't' :: []) 'y' (by decide)⟩
                        · rw [if_neg htake] at h
                          exact Option.noConfusion h
                      · rw [if_neg hIh] at h
                        by_cases hneg : c = '-'
                        · rw [if_pos hneg] at h
                          by_cases htake : r.take 8 = "Infinity".data
                          · rw [if_pos htake] at h
                            have h2 : (JsonValue.num "-Infinity".data, r.drop 8) = (v, rest) :=
                              Option.some.inj h
                            have hrest : r.drop 8 = rest := congrArg Prod.snd h2
                            exact ⟨'y', by decide, lit_branch c r "Infinity".data rest 8 htake hrest
                              ('I' :: 'n' :: 'f' :: 'i' :: 'n' :: 'i' :: 't' :: []) 'y' (by decide)⟩
                          · rw [if_neg htake] at h
                            rcases hn : parseNumber (c :: r) with _ | ⟨lex, rest1⟩
                            · rw [hn] at h
                              exact Option.noConfusion h
                            · rw [hn] at h
                              have h2 : (JsonValue.num lex, rest1) = (v, rest) := Option.some.inj h
                              have hrest : rest1 = rest := congrArg Prod.snd h2
                              obtain ⟨pre, d, hpre, hd⟩ := parseNumber_decomp (c :: r) lex rest1 hn
                              exact ⟨d, digit_closer d hd, pre, by rw [← hrest]; exact hpre⟩
                        · rw [if_neg hneg] at h
                          by_cases hdig : c.isDigit = true
                          · rw [if_pos hdig] at h
                            rcases hn : parseNumber (c :: r) with _ | ⟨lex, rest1⟩
                            · rw [hn] at h
                              exact Option.noConfusion h
                            · rw [hn] at h
                              have h2 : (JsonValue.num lex, rest1) = (v, rest) := Option.some.inj h
                              have hrest : rest1 = rest := congrArg Prod.snd h2
                              obtain ⟨pre, d, hpre, hd⟩ := parseNumber_decomp (c :: r) lex rest1 hn
                              exact ⟨d, digit_closer d hd, pre, by rw [← hrest]; exact hpre⟩
                          · rw [if_neg hdig] at h
                            exact Option.noConfusion h
    · intro cs kvs rest h
      match cs with
      | [] => simp [parseMembers] at h
      | c :: r =>
        simp only [parseMembers] at h
        by_cases hq : c = '"'
        · rw [if_pos hq] at h
          rcases hsb : parseStringBody f r with _ | ⟨key, r1⟩
          · rw [hsb] at h
            exact Option.noConfusion h
          · rw [hsb] at h
            dsimp only at h
            obtain ⟨pre0, hpre0⟩ := parseStringBody_suffix f r key r1 hsb
            have hr1cs : r1 <:+ c :: r := (suffix_of_mid hpre0).trans (suffix_cons_self c r)
            rcases hsw : skipWs r1 with _ | ⟨d, r2⟩
            · rw [hsw] at h
              exact Option.noConfusion h
            · rw [hsw] at h
              dsimp only at h
              have hdr2 : (d :: r2) <:+ r1 := hsw ▸ skipWs_suffix r1
              by_cases hcolon : d = ':'
              · rw [if_pos hcolon] at h
                rcases hv : parseValue f (skipWs r2) with _ | ⟨v2, r3⟩
                · rw [hv] at h
                  exact Option.noConfusion h
                · rw [hv] at h
                  dsimp only at h
                  obtain ⟨c2, hc2, pre2, hpre2⟩ := ihv (skipWs r2) v2 r3 hv
                  have hr3r1 : r3 <:+ r1 :=
                    (((suffix_of_mid hpre2).trans (skipWs_suffix r2)).trans
                      (suffix_cons_self d r2)).trans hdr2
                  rcases hsw3 : skipWs r3 with _ | ⟨e, r4⟩
                  · rw [hsw3] at h
                    dsimp only at h
                    have h2 : ([(key, v2)], ([] : List Char)) = (kvs, rest) := Option.some.inj h
                    have hrest : ([] : List Char) = rest := congrArg Prod.snd h2
                    rw [← hrest]
                    exact List.nil_suffix
                  · rw [hsw3] at h
                    dsimp only at h
                    have her4 : (e :: r4) <:+ r3 := hsw3 ▸ skipWs_suffix r3
                    by_cases hcomma : e = ','
                    · rw [if_pos hcomma] at h
                      rcases hm2 : parseMembers f (skipWs r4) with _ | ⟨kvs2, rest2⟩
                      · rw [hm2] at h
                        exact Option.noConfusion h
                      · rw [hm2] at h
                        have h2 : ((key, v2) :: kvs2, rest2) = (kvs, rest) := Option.some.inj h
                        have hrest : rest2 = rest := congrArg Prod.snd h2
                        rw [← hrest]
                        have s1 : rest2 <:+ skipWs r4 := ihm (skipWs r4) kvs2 rest2 hm2
                        exact ((((s1.trans (skipWs_suffix r4)).trans
                          (suffix_cons_self e r4)).trans her4).trans hr3r1).trans hr1cs
                    · rw [if_neg hcomma] at h
                      have h2 : ([(key, v2)], e :: r4) = (kvs, rest) := Option.some.inj h
                      have hrest : e :: r4 = rest := congrArg Prod.snd h2
                      rw [← hrest]
                      exact (her4.trans hr3r1).trans hr1cs
              · rw [if_neg hcolon] at h
                exact Option.noConfusion h
        · rw [if_neg hq] at h
          exact Option.noConfusion h
    · intro cs xs rest h
      simp only [parseElements] at h
      rcases hv : parseValue f cs with _ | ⟨v2, r⟩
      · rw [hv] at h
        exact Option.noConfusion h
      · rw [hv] at h
        dsimp only at h
        obtain ⟨c2, hc2, pre2, hpre2⟩ := ihv cs v2 r hv
        have hrsuf : r <:+ cs := suffix_of_mid hpre2
        rcases hsw : skipWs r with _ | ⟨e, r2⟩
        · rw [hsw] at h
          dsimp only at h
          have h2 : ([v2], ([] : List Char)) = (xs, rest) := Option.some.inj h
          have hrest : ([] : List Char) = rest := congrArg Prod.snd h2
          rw [← hrest]
          exact List.nil_suffix
        · rw [hsw] at h
          dsimp only at h
          have her2 : (e :: r2) <:+ r := hsw ▸ skipWs_suffix r
          by_cases hcomma : e = ','
          · rw [if_pos hcomma] at h
            rcases he2 : parseElements f (skipWs r2) with _ | ⟨xs2, rest2⟩
            · rw [he2] at h
              exact Option.noConfusion h
            · rw [he2] at h
              have h2 : (v2 :: xs2, rest2) = (xs, rest) := Option.some.inj h
              have hrest : rest2 = rest := congrArg Prod.snd h2
              rw [← hrest]
              have s1 : rest2 <:+ skipWs r2 := ihe (skipWs r2) xs2 rest2 he2
              exact (((s1.trans (skipWs_suffix r2)).trans
                (suffix_cons_self e r2)).trans her2).trans hrsuf
          · rw [if_neg hcomma] at h
            have h2 : ([v2], e :: r2) = (xs, rest) := Option.some.inj h
            have hrest : e :: r2 = rest := congrArg Prod.snd h2
            rw [← hrest]
            exact her2.trans hrsuf


theorem rtake_suffix_own (l : List Char) (n : Nat) : l.rtake n <:+ l :=
  List.drop_suffix _ l

theorem jsonParse_shape (s : List Char) (v : JsonValue) (h : jsonParse s = some v) :
    ∃ wsL core wsR,
      s = wsL ++ (core ++ wsR) ∧
      (∀ c ∈ wsL, isPyWs c = true) ∧
      (∀ c ∈ wsR, isPyWs c = true) ∧
      (∃ c0 l, core = c0 :: l ∧ isOpener c0 = true) ∧
      (∃ l2 c1, core = l2 ++ [c1] ∧ isCloser c1 = true) := by
  unfold jsonParse at h
  rcases hv : parseValue (s.length + 1) (skipWs s) with _ | ⟨v2, rest⟩
  · rw [hv] at h
    exact Option.noConfusion h
  · rw [hv] at h
    dsimp only at h
    by_cases hrest : skipWs rest = []
    · obtain ⟨c1, hc1, pre, hpre⟩ := (parse_suffix_closer (s.length + 1)).1 (skipWs s) v2 rest hv
      obtain ⟨c0, l0, hhead, hc0⟩ := parseValue_head _ _ _ _ hv
      refine ⟨s.takeWhile isJsonWs, pre ++ [c1], rest, ?_, ?_, ?_, ?_, ?_⟩
      · conv_lhs => rw [← List.takeWhile_append_dropWhile isJsonWs s]
        congr 1
        rw [show s.dropWhile isJsonWs = skipWs s from rfl, hpre]
        simp
      · intro c hc
        exact jsonWs_pyWs (List.mem_takeWhile_imp hc)
      · intro c hc
        exact jsonWs_pyWs (List.dropWhile_eq_nil_iff.mp hrest c hc)
      · rcases pre with _ | ⟨p0, ps⟩
        · have he : c0 :: l0 = c1 :: rest := hhead.symm.trans hpre
          have : c0 = c1 := (List.cons.inj he).1
          exact ⟨c1, [], rfl, this ▸ hc0⟩
        · have he : c0 :: l0 = p0 :: (ps ++ c1 :: rest) := by
            rw [← hhead, hpre]
            rfl
          have : c0 = p0 := (List.cons.inj he).1
          exact ⟨p0, ps ++ [c1], by simp, this ▸ hc0⟩
      · exact ⟨pre, c1, rfl, hc1⟩
    · rw [if_neg hrest] at h
      exact Option.noConfusion h

theorem pyStrip_mid (wsL mid wsR : List Char)
    (hL : ∀ c ∈ wsL, isPyWs c = true) (hR : ∀ c ∈ wsR, isPyWs c = true)
    (hhead : ∃ c0 t, mid = c0 :: t ∧ isPyWs c0 = false)
    (hlast : ∃ t2 c1, mid = t2 ++ [c1] ∧ isPyWs c1 = false) :
    pyStrip (wsL ++ (mid ++ wsR)) = mid := by
  obtain ⟨c0, t, hc0, h0⟩ := hhead
  obtain ⟨t2, c1, hc2, h1⟩ := hlast
  unfold pyStrip
  rw [dropWhile_append_all isPyWs wsL (mid ++ wsR) hL]
  have h2 : (mid ++ wsR).dropWhile isPyWs = mid ++ wsR := by
    rw [hc0, List.cons_append]
    exact List.dropWhile_cons_of_neg (not_pyWs_true_of_false h0)
  rw [h2, rdropWhile_append_all isPyWs mid wsR hR, hc2]
  exact List.rdropWhile_concat_neg _ _ c1 (not_pyWs_true_of_false h1)

theorem stripLeadingFence_noop (cs : List Char)
    (h : ∃ c l, cs = c :: l ∧ isOpener c = true) : stripLeadingFence cs = cs := by
  obtain ⟨c, l, rfl, hop⟩ := h
  unfold stripLeadingFence
  have hne : ¬((c :: l).take 3 = fenceDelim) := by
    intro hh
    rw [List.take_succ_cons] at hh
    exact opener_ne_bq c hop (List.cons.inj hh).1
  rw [if_neg hne]

theorem stripTrailingFence_noop (cs : List Char)
    (h : ∃ l2 c, cs = l2 ++ [c] ∧ isCloser c = true) : stripTrailingFence cs = cs := by
  obtain ⟨l2, c, rfl, hcl⟩ := h
  unfold stripTrailingFence
  have hne : ¬((l2 ++ [c]).rtake 3 = fenceDelim) := by
    intro hh
    have hsuf : fenceDelim <:+ l2 ++ [c] := hh ▸ rtake_suffix_own (l2 ++ [c]) 3
    obtain ⟨t, ht⟩ := hsuf
    have h1 := congrArg List.getLast? ht
    rw [show t ++ fenceDelim = (t ++ [bq, bq]) ++ [bq] by simp [fenceDelim],
      List.getLast?_concat, List.getLast?_concat] at h1
    exact closer_ne_bq c hcl (Option.some.inj h1).symm
  rw [if_neg hne]

theorem cleanText_unfenced (s wsL core wsR : List Char)
    (hs : s = wsL ++ (core ++ wsR))
    (hL : ∀ c ∈ wsL, isPyWs c = true) (hR : ∀ c ∈ wsR, isPyWs c = true)
    (hhead : ∃ c0 l, core = c0 :: l ∧ isOpener c0 = true)
    (hlast : ∃ l2 c1, core = l2 ++ [c1] ∧ isCloser c1 = true) :
    cleanText s = core := by
  have hstrip : pyStrip s = core := by
    rw [hs]
    exact pyStrip_mid wsL core wsR hL hR
      (by obtain ⟨c0, l, hc, ho⟩ := hhead; exact ⟨c0, l, hc, opener_not_pyWs c0 ho⟩)
      (by obtain ⟨l2, c1, hc, hcl⟩ := hlast; exact ⟨l2, c1, hc, closer_not_pyWs c1 hcl⟩)
  unfold cleanText
  rw [hstrip, stripLeadingFence_noop core hhead, stripTrailingFence_noop core hlast]

theorem rtake3_append (W : List Char) (a b c : Char) : (W ++ [a, b, c]).rtake 3 = [a, b, c] := by
  rw [List.rtake_eq_reverse_take_reverse]
  simp

theorem rdrop3_append (W : List Char) (a b c : Char) : (W ++ [a, b, c]).rdrop 3 = W := by
  rw [List.rdrop_eq_reverse_drop_reverse]
  simp

theorem cleanText_fenced (tag s wsL core wsR : List Char)
    (htag : lowerStr tag = "json".data ∨ tag = [])
    (hs : s = wsL ++ (core ++ wsR))
    (hL : ∀ c ∈ wsL, isPyWs c = true) (hR : ∀ c ∈ wsR, isPyWs c = true)
    (hhead : ∃ c0 l, core = c0 :: l ∧ isOpener c0 = true)
    (hlast : ∃ l2 c1, core = l2 ++ [c1] ∧ isCloser c1 = true) :
    cleanText (fenceWrap tag s) = core := by
  obtain ⟨c0, l0, hc0, hop⟩ := hhead
  obtain ⟨l2, c1, hc2, hcl⟩ := hlast
  have hstrip : pyStrip (fenceWrap tag s) = fenceWrap tag s := by
    obtain ⟨t2, hct2⟩ : ∃ t2, fenceWrap tag s = t2 ++ [bq] :=
      ⟨fenceDelim ++ tag ++ '\n' :: (s ++ ('\n' :: [bq, bq])), by simp [fenceWrap, fenceDelim]⟩
    have hct : fenceWrap tag s = bq :: (bq :: bq :: (tag ++ '\n' :: (s ++ '\n' :: fenceDelim))) := by
      simp [fenceWrap, fenceDelim]
    unfold pyStrip
    rw [hct, List.dropWhile_cons_of_neg (by decide), ← hct, hct2]
    exact List.rdropWhile_concat_neg _ _ bq (by decide)
  have hwsdrop : ('\n' :: (s ++ '\n' :: fenceDelim)).dropWhile isPyWs =
      core ++ (wsR ++ ('\n' :: fenceDelim)) := by
    rw [List.dropWhile_cons_of_pos (by decide), hs]
    rw [show (wsL ++ (core ++ wsR)) ++ '\n' :: fenceDelim
        = wsL ++ (core ++ (wsR ++ ('\n' :: fenceDelim))) by simp]
    rw [dropWhile_append_all isPyWs wsL _ hL, hc0, List.cons_append,
      List.dropWhile_cons_of_neg (not_pyWs_true_of_false (opener_not_pyWs c0 hop))]
  have hclean1 : stripLeadingFence (fenceWrap tag s) =
      core ++ (wsR ++ ('\n' :: fenceDelim)) := by
    simp only [stripLeadingFence]
    have hc3 : (fenceWrap tag s).take 3 = fenceDelim := by
      simp [fenceWrap, fenceDelim]
    have hdrop3 : (fenceWrap tag s).drop 3 = tag ++ '\n' :: (s ++ '\n' :: fenceDelim) := by
      simp [fenceWrap, fenceDelim]
    rw [if_pos hc3, hdrop3]
    rcases htag with htag | htag
    · have hlen : tag.length = 4 := by
        have h4 := congrArg List.length htag
        simpa [lowerStr] using h4
      have htake4 : (tag ++ '\n' :: (s ++ '\n' :: fenceDelim)).take 4 = tag := by
        rw [← hlen, List.take_left]
      rw [htake4, if_pos htag, show (4 : Nat) = tag.length from hlen.symm, List.drop_left]
      exact hwsdrop
    · subst htag
      rw [show (([] : List Char) ++ '\n' :: (s ++ '\n' :: fenceDelim))
          = '\n' :: (s ++ '\n' :: fenceDelim) by simp]
      have hcond : ¬(lowerStr (('\n' :: (s ++ '\n' :: fenceDelim)).take 4) = "json".data) := by
        intro hh
        rw [List.take_succ_cons] at hh
        simp only [lowerStr, List.map_cons] at hh
        exact absurd (List.cons.inj hh).1 (by decide)
      rw [if_neg hcond]
      exact hwsdrop
  unfold cleanText
  rw [hstrip, hclean1]
  rw [show core ++ (wsR ++ ('\n' :: fenceDelim)) = (core ++ (wsR ++ ['\n'])) ++ [bq, bq, bq]
    by simp [fenceDelim]]
  unfold stripTrailingFence
  rw [rtake3_append, if_pos (show ([bq, bq, bq] : List Char) = fenceDelim from rfl), rdrop3_append]
  have hws2 : ∀ c ∈ wsR ++ ['\n'], isPyWs c = true := by
    intro c hc
    rcases List.mem_append.mp hc with hc | hc
    · exact hR c hc
    · rw [List.mem_singleton.mp hc]
      decide
  rw [rdropWhile_append_all isPyWs core (wsR ++ ['\n']) hws2, hc2]
  exact List.rdropWhile_concat_neg _ _ c1 (not_pyWs_true_of_false (closer_not_pyWs c1 hcl))

theorem cleanText_fence_inv (s tag : List Char) (v : JsonValue)
    (htag : lowerStr tag = "json".data ∨ tag = []) (h : jsonParse s = some v) :
    cleanText (fenceWrap tag s) = cleanText s := by
  obtain ⟨wsL, core, wsR, hs, hL, hR, hhead, hlast⟩ := jsonParse_shape s v h
  rw [cleanText_fenced tag s wsL core wsR htag hs hL hR hhead hlast,
    cleanText_unfenced s wsL core wsR hs hL hR hhead hlast]

/-- C6: wrapping a valid JSON worker output in a leading/trailing code
fence with a `json` language tag of any casing, or with no tag, does not
change the result: the cleaned text and the summarizer's normalized
result are identical to those of the unwrapped output. -/
theorem c6_fence_casing_invariance (s tag : List Char) (v : JsonValue)
    (htag : lowerStr tag = "json".data ∨ tag = [])
    (h : jsonParse s = some v) :
    cleanText (fenceWrap tag s) = cleanText s ∧
    summarize_conversation (fenceWrap tag s) = summarize_conversation s := by
  have h1 := cleanText_fence_inv s tag v htag h
  exact ⟨h1, by simp only [summarize_conversation, h1]⟩

/-- Witness for C6 at the spec scenario: the summarizer output
`{"summary": "Team concluded the meeting."}` wrapped in a ```json fence
normalizes exactly like the bare output, to the structured summary. -/
theorem c6_fence_casing_invariance_witness :
    summarize_conversation (fenceWrap "json".data exTeam) = summarize_conversation exTeam ∧
    summarize_conversation exTeam =
      .summary (.str "Team concluded the meeting.".data) := by
  refine ⟨(c6_fence_casing_invariance exTeam "json".data
    (JsonValue.obj [("summary".data, JsonValue.str "Team concluded the meeting.".data)])
    (Or.inl (by decide)) rfl).2, rfl⟩

end NextjsFlask
